import Mathlib

/-!
Verification of the chunked ingestion sender (`send_in_chunks.py`).

The Python program is shallowly embedded here.  Lines are `List Char`
(Python `str`), a chunk is a `List (List Char)`, the chunk size is `Int`
(Python `int`, which may be non-positive), and the black-box HTTP
transport (`requests.post`) is an explicit oracle argument giving, per
call, either a response (status code and text) or a raised exception,
together with the measured elapsed time.
-/

namespace SendInChunks

/-- Embedding of `host.rstrip('/')` (line 15): remove every trailing `/`. -/
def rstrip_slash (host : List Char) : List Char :=
  (host.reverse.dropWhile (fun c => c == '/')).reverse

/-- Embedding of `get_endpoint` (lines 8-21).  The `ValueError` raised on an
unsupported backend is `none`. -/
def get_endpoint (host : List Char) (backend : String) : Option (List Char) :=
  let h := rstrip_slash host
  if backend = "questdb" then
    some (h ++ "/write".toList)
  else if backend = "influxdb" then
    some (h ++ "/api/v3/write_lp?db=sensors&precision=auto".toList)
  else
    none

/-- Embedding of the omit-timestamp transformation (lines 73-75):
`parts = line.rsplit(' ', 1); if len(parts) == 2: line = parts[0]`.
`rsplit(' ', 1)` yields two parts exactly when the line contains a space,
and the first part is everything strictly before the last space. -/
def omit_timestamp (line : List Char) : List Char :=
  if ' ' ∈ line then
    ((line.reverse.dropWhile (fun c => c != ' ')).drop 1).reverse
  else
    line

/-- Embedding of the chunking loop of `main` (lines 68-81): `acc` is the
`chunk` list being filled; after appending a line the loop flushes when
`len(chunk) == args.chunk_size`; a non-empty remainder is flushed at the
end.  The chunk size is `Int` because the Python `int` is never validated. -/
def chunksAux {α : Type} (size : Int) (acc : List α) : List α → List (List α)
  | [] => if acc.isEmpty then [] else [acc]
  | x :: xs =>
    let acc2 := acc ++ [x]
    if (acc2.length : Int) = size then acc2 :: chunksAux size [] xs
    else chunksAux size acc2 xs

/-- The chunker applied to a whole line sequence (the loop starts with
`chunk = []`). -/
def chunks {α : Type} (size : Int) (lines : List α) : List (List α) :=
  chunksAux size [] lines

/-- Embedding of Python `'\n'.join(parts)` (pairwise join with a separator). -/
def join_sep (sep : List Char) : List (List Char) → List Char
  | [] => []
  | [x] => x
  | x :: y :: ys => x ++ sep ++ join_sep sep (y :: ys)

/-- Embedding of the request body construction (line 30):
`data = "\n".join(chunk_lines) + "\n"`. -/
def chunk_body (chunk_lines : List (List Char)) : List Char :=
  join_sep ['\n'] chunk_lines ++ ['\n']

/-- Outcome of one black-box `requests.post` call: a response (status code
and body text) or a raised exception with its message. -/
inductive TransportResult : Type
  | resp (status : Nat) (text : List Char)
  | exc (msg : List Char)
deriving DecidableEq

/-- What `send_chunk` returns and reports for one chunk: the returned tuple
`(len(chunk_lines), elapsed)` (lines 38 and 42) plus the error detail the
function prints to stderr, if any (line 37 for a non-ok status, line 41 for
an exception). -/
structure SendRecord : Type where
  rows : Nat
  elapsed : Nat
  errText : Option (List Char)
deriving DecidableEq

/-- A `send_chunk` call either returns a record or lets an exception escape
(only `get_endpoint`, called outside the `try` block, can raise). -/
inductive SendCall : Type
  | raised (msg : List Char)
  | returned (r : SendRecord)
deriving DecidableEq

/-- Embedding of `send_chunk` (lines 23-42).  Also records the write
requests `(url, body)` actually issued (exactly one in both the response
and the exception branch, none when `get_endpoint` raises).  `response.ok`
is `status_code < 400`. -/
def send_chunk (chunk_lines : List (List Char)) (host : List Char) (backend : String)
    (tr : TransportResult) (elapsed : Nat) :
    SendCall × List (List Char × List Char) :=
  match get_endpoint host backend with
  | none => (.raised ("Unsupported backend: ".toList ++ backend.toList), [])
  | some url =>
    let body := chunk_body chunk_lines
    match tr with
    | .resp status text =>
        (.returned ⟨chunk_lines.length, elapsed, if status < 400 then none else some text⟩,
         [(url, body)])
    | .exc msg =>
        (.returned ⟨chunk_lines.length, elapsed, some msg⟩, [(url, body)])

/-- Embedding of `multiprocessing.Pool(processes=workers)` + `pool.map`
(lines 91-92): the pool constructor raises for `workers = 0` (`none`);
otherwise `map` blocks until every element has been processed and returns
the results in input order. -/
def pool_map {α β : Type} (workers : Nat) (f : α → β) (xs : List α) : Option (List β) :=
  if workers = 0 then none else some (xs.map f)

/-- Embedding of the aggregation loop (lines 96-98): fold accumulating
`(total_rows, total_request_time)` from `(rows, req_time)` pairs. -/
def aggregate (results : List SendRecord) : Nat × Nat :=
  results.foldl (fun acc r => (acc.1 + r.rows, acc.2 + r.elapsed)) (0, 0)

/-- The command-line configuration after `argparse` typing (lines 55-61). -/
structure Config : Type where
  host : List Char
  chunk_size : Int
  workers : Nat
  backend : String
  omit_ts : Bool

/-- How a run ends: `usage_error` is the argparse `choices` rejection of the
backend (exit 2, before anything else runs); `file_error` is the
`except` around file reading (exit 1, lines 82-84); `pool_error` is an
uncaught exception at the pool (worker count 0, or an exception re-raised
out of `pool.map`); otherwise the final report is printed. -/
inductive RunOutcome : Type
  | usage_error
  | file_error
  | pool_error
  | report (totalRows : Nat) (totalReqTime : Nat)
deriving DecidableEq

/-- Observable trace of one run: how it ended, every write request issued
on the network, and the `SendResult`s collected by the pool. -/
structure RunTrace : Type where
  outcome : RunOutcome
  requests : List (List Char × List Char)
  results : List SendRecord
deriving DecidableEq

/-- Per-line transformation step of the reading loop (lines 71-76): with
`--omit-timestamp` every line is transformed before entering a chunk. -/
def transformed (cfg : Config) (rawLines : List (List Char)) : List (List Char) :=
  if cfg.omit_ts then rawLines.map omit_timestamp else rawLines

/-- Extraction of a worker result: an exception raised inside a worker is
re-raised by `pool.map` in the parent (no result list is produced). -/
def extract_result (c : SendCall × List (List Char × List Char)) : Option SendRecord :=
  match c.1 with
  | .returned r => some r
  | .raised _ => none

/-- Embedding of `main` (lines 51-102).  `file` is `none` when the input
file cannot be read; `oracle` gives the transport outcome and elapsed time
of the i-th chunk's `requests.post` call. -/
def run (cfg : Config) (file : Option (List (List Char)))
    (oracle : Nat → TransportResult × Nat) : RunTrace :=
  if ¬ (cfg.backend = "questdb" ∨ cfg.backend = "influxdb") then
    ⟨.usage_error, [], []⟩
  else
    match file with
    | none => ⟨.file_error, [], []⟩
    | some rawLines =>
      let cks := chunks cfg.chunk_size (transformed cfg rawLines)
      match pool_map cfg.workers
          (fun p : Nat × List (List Char) =>
            send_chunk p.2 cfg.host cfg.backend (oracle p.1).1 (oracle p.1).2)
          cks.enum with
      | none => ⟨.pool_error, [], []⟩
      | some calls =>
        let reqs := (calls.map Prod.snd).flatten
        match calls.mapM extract_result with
        | none => ⟨.pool_error, reqs, []⟩
        | some recs =>
          let t := aggregate recs
          ⟨.report t.1 t.2, reqs, recs⟩

/-- Reference chunking by repeated `take`/`drop`, used to state and prove
the properties of the loop-based `chunks`. -/
def specChunks {α : Type} (n : Nat) : List α → List (List α)
  | [] => []
  | x :: xs =>
    if _h : n = 0 then []
    else (x :: xs).take n :: specChunks n ((x :: xs).drop n)
termination_by l => l.length
decreasing_by
  simp only [List.length_drop, List.length_cons]
  omega

/-- Formalisation of the spec sentence "remove the final
whitespace-delimited token and the whitespace immediately preceding it; a
line with no whitespace is left unchanged", splitting at the last
whitespace character (for comparison with the code's space-only split). -/
def specOmitWhitespace (line : List Char) : List Char :=
  if line.any (fun c => c.isWhitespace) then
    ((line.reverse.dropWhile (fun c => !c.isWhitespace)).drop 1).reverse
  else
    line

/-- Error detail `send_chunk` records for a transport outcome: the response
text when the status is not ok, the exception message when one is raised
(the two stderr prints, lines 37 and 41), nothing on a 2xx/3xx response. -/
def errOf (tr : TransportResult) : Option (List Char) :=
  match tr with
  | .resp status text => if status < 400 then none else some text
  | .exc msg => some msg

/-- The 10-line input file of the spec's end-to-end scenario. -/
def tenLines : List (List Char) :=
  [['a'], ['b'], ['c'], ['d'], ['e'], ['f'], ['g'], ['h'], ['i'], ['j']]

/-- The end-to-end configuration: chunk size 3, one worker, questdb. -/
def cfg10 : Config := ⟨"http://h:9".toList, 3, 1, "questdb", false⟩

/-- A transport oracle with mixed outcomes: chunk 1 raises an exception,
chunk 2 gets a 500 response, the others succeed; every call takes 4. -/
def oracleMix (i : Nat) : TransportResult × Nat :=
  if i = 1 then (.exc "connection refused".toList, 4)
  else if i = 2 then (.resp 500 "server error".toList, 4)
  else (.resp 204 [], 4)

/-! ### Properties of the chunker -/

theorem specChunks_nil {α : Type} (n : Nat) : specChunks n ([] : List α) = [] := by
  rw [specChunks]

theorem specChunks_cons_eq {α : Type} (n : Nat) (hn : n ≠ 0) (l : List α) (hl : l ≠ []) :
    specChunks n l = l.take n :: specChunks n (l.drop n) := by
  cases l with
  | nil => exact absurd rfl hl
  | cons x xs => rw [specChunks]; simp [hn]

theorem specChunks_eq_nil_iff {α : Type} (n : Nat) (hn : n ≠ 0) (l : List α) :
    specChunks n l = [] ↔ l = [] := by
  cases l with
  | nil => simp [specChunks_nil]
  | cons x xs => rw [specChunks_cons_eq n hn _ (by simp)]; simp

theorem chunksAux_eq_spec {α : Type} (n : Nat) (hn : 0 < n) (l : List α) :
    ∀ acc : List α, acc.length < n → chunksAux (n : Int) acc l = specChunks n (acc ++ l) := by
  induction l with
  | nil =>
    intro acc ha
    cases acc with
    | nil => simp [chunksAux, specChunks_nil]
    | cons a as =>
      simp only [chunksAux, List.isEmpty_cons, List.append_nil]
      rw [specChunks_cons_eq n (by omega) _ (by simp)]
      rw [List.take_of_length_le (by omega), List.drop_eq_nil_of_le (by omega)]
      simp [specChunks_nil]
  | cons x xs ih =>
    intro acc ha
    simp only [chunksAux, List.length_append, List.length_singleton]
    by_cases hc : ((acc.length + 1 : Nat) : Int) = (n : Int)
    · have hlen : acc.length + 1 = n := by exact_mod_cast hc
      rw [if_pos (by exact_mod_cast hc)]
      rw [ih [] (by simp only [List.length_nil]; omega)]
      simp only [List.nil_append]
      rw [List.append_cons acc x xs]
      rw [specChunks_cons_eq n (by omega) (acc ++ [x] ++ xs) (by simp)]
      have hlen2 : (acc ++ [x]).length = n := by simp; omega
      rw [List.take_left' hlen2, List.drop_left' hlen2]
    · have hlen : acc.length + 1 ≠ n := fun h => hc (by exact_mod_cast h)
      rw [if_neg (by exact_mod_cast hc)]
      rw [ih (acc ++ [x]) (by simp; omega)]
      rw [List.append_cons acc x xs]

theorem chunks_eq_spec {α : Type} (n : Nat) (hn : 0 < n) (l : List α) :
    chunks (n : Int) l = specChunks n l := by
  have h := chunksAux_eq_spec n hn l [] (by simpa using hn)
  simpa [chunks] using h

theorem specChunks_flatten {α : Type} (n : Nat) (hn : n ≠ 0) (l : List α) :
    (specChunks n l).flatten = l := by
  cases l with
  | nil => simp [specChunks_nil]
  | cons x xs =>
    rw [specChunks_cons_eq n hn _ (by simp), List.flatten_cons,
      specChunks_flatten n hn ((x :: xs).drop n), List.take_append_drop]
termination_by l.length
decreasing_by
  simp only [List.length_drop, List.length_cons]
  omega

theorem specChunks_length {α : Type} (n : Nat) (hn : n ≠ 0) (l : List α) :
    (specChunks n l).length = (l.length + n - 1) / n := by
  cases l with
  | nil =>
    rw [specChunks_nil]
    simp only [List.length_nil, List.length, Nat.zero_add]
    symm
    apply Nat.div_eq_of_lt
    omega
  | cons x xs =>
    rw [specChunks_cons_eq n hn _ (by simp), List.length_cons,
      specChunks_length n hn ((x :: xs).drop n)]
    simp only [List.length_drop, List.length_cons]
    have h3 : xs.length + 1 + n - 1 = (xs.length + 1 - 1) + n := by omega
    rw [h3, Nat.add_div_right _ (by omega)]
    rcases le_or_lt (xs.length + 1) n with hL | hL
    · have h1 : xs.length + 1 - n = 0 := by omega
      rw [h1, Nat.div_eq_of_lt (by omega), Nat.div_eq_of_lt (by omega)]
    · have h2 : xs.length + 1 - n + n - 1 = (xs.length + 1 - 1) := by omega
      rw [h2]
termination_by l.length
decreasing_by
  simp only [List.length_drop, List.length_cons]
  omega

theorem specChunks_dropLast {α : Type} (n : Nat) (hn : n ≠ 0) (l : List α) :
    ∀ c ∈ (specChunks n l).dropLast, c.length = n := by
  cases l with
  | nil => simp [specChunks_nil]
  | cons x xs =>
    rw [specChunks_cons_eq n hn _ (by simp)]
    by_cases hd : (x :: xs).drop n = []
    · rw [hd, specChunks_nil]
      simp
    · have hne : specChunks n ((x :: xs).drop n) ≠ [] := by
        rw [ne_eq, specChunks_eq_nil_iff n hn]
        exact hd
      rw [List.dropLast_cons_of_ne_nil hne]
      intro c hc
      rcases List.mem_cons.mp hc with h | h
      · subst h
        have hlen : n ≤ (x :: xs).length := by
          by_contra hlt
          push_neg at hlt
          exact hd (List.drop_eq_nil_of_le (by omega))
        simp only [List.length_take]
        omega
      · exact specChunks_dropLast n hn ((x :: xs).drop n) c h
termination_by l.length
decreasing_by
  simp only [List.length_drop, List.length_cons]
  omega

theorem getLast?_cons_of_ne_nil {α : Type} (a : α) (l : List α) (h : l ≠ []) :
    (a :: l).getLast? = l.getLast? := by
  cases l with
  | nil => exact absurd rfl h
  | cons b bs => exact List.getLast?_cons_cons

theorem specChunks_getLast {α : Type} (n : Nat) (hn : n ≠ 0) (l : List α) (hl : l ≠ []) :
    ∃ c, (specChunks n l).getLast? = some c ∧
      c.length = if l.length % n = 0 then n else l.length % n := by
  cases l with
  | nil => exact absurd rfl hl
  | cons x xs =>
    rw [specChunks_cons_eq n hn _ (by simp)]
    by_cases hd : (x :: xs).drop n = []
    · have hLn : (x :: xs).length ≤ n := by
        by_contra hlt
        push_neg at hlt
        have hcontra := congrArg List.length hd
        simp only [List.length_drop, List.length_nil] at hcontra
        omega
      rw [hd, specChunks_nil, List.take_of_length_le hLn]
      refine ⟨x :: xs, by simp, ?_⟩
      rcases eq_or_lt_of_le hLn with heq | hlt
      · rw [heq]
        simp [Nat.mod_self]
      · rw [Nat.mod_eq_of_lt hlt, if_neg (by simp)]
    · have hlend : n < (x :: xs).length := by
        by_contra hlt
        push_neg at hlt
        exact hd (List.drop_eq_nil_of_le hlt)
      simp only [List.length_cons] at hlend
      obtain ⟨c, hc1, hc2⟩ := specChunks_getLast n hn ((x :: xs).drop n) hd
      have hne : specChunks n ((x :: xs).drop n) ≠ [] := by
        rw [ne_eq, specChunks_eq_nil_iff n hn]
        exact hd
      refine ⟨c, ?_, ?_⟩
      · rw [getLast?_cons_of_ne_nil _ _ hne]
        exact hc1
      · rw [hc2]
        simp only [List.length_drop, List.length_cons]
        have hsplit : xs.length + 1 = (xs.length + 1 - n) + n := by omega
        have hmod : (xs.length + 1) % n = (xs.length + 1 - n) % n := by
          conv_lhs => rw [hsplit]
          rw [Nat.add_mod_right]
        rw [hmod]
termination_by l.length
decreasing_by
  subst_vars
  simp only [List.length_drop, List.length_cons]
  omega

theorem chunks_nil {α : Type} (size : Int) : chunks size ([] : List α) = [] := rfl

/-- C1: for every input line sequence and every chunk size N > 0, the
chunker produces ceil(L / N) chunks whose concatenation reproduces the
input in order; all chunks before the last have exactly N lines; when N
divides L every chunk has exactly N lines, otherwise the last chunk has
L mod N lines; an empty input yields no chunks. -/
theorem claim_C1 (n : Nat) (hn : 0 < n) (l : List (List Char)) :
    (chunks (n : Int) l).flatten = l ∧
    (chunks (n : Int) l).length = (l.length + n - 1) / n ∧
    (n ∣ l.length → ∀ c ∈ chunks (n : Int) l, c.length = n) ∧
    (¬ n ∣ l.length →
      (∀ c ∈ (chunks (n : Int) l).dropLast, c.length = n) ∧
      ∃ c, (chunks (n : Int) l).getLast? = some c ∧ c.length = l.length % n) ∧
    (l = [] → chunks (n : Int) l = []) := by
  have hn0 : n ≠ 0 := by omega
  rw [chunks_eq_spec n hn l]
  refine ⟨specChunks_flatten n hn0 l, specChunks_length n hn0 l, ?_, ?_, ?_⟩
  · intro hdvd c hc
    have hl : l ≠ [] := by
      intro hnil
      subst hnil
      rw [specChunks_nil] at hc
      exact absurd hc (List.not_mem_nil c)
    have hne : specChunks n l ≠ [] := by
      rw [ne_eq, specChunks_eq_nil_iff n hn0]
      exact hl
    rw [← List.dropLast_append_getLast hne] at hc
    rcases List.mem_append.mp hc with h | h
    · exact specChunks_dropLast n hn0 l c h
    · have hcl : c = (specChunks n l).getLast hne := by simpa using h
      obtain ⟨d, hd1, hd2⟩ := specChunks_getLast n hn0 l hl
      rw [List.getLast?_eq_getLast _ hne] at hd1
      have hcd : c = d := by rw [hcl]; exact Option.some_injective _ hd1
      rw [hcd, hd2, if_pos (Nat.mod_eq_zero_of_dvd hdvd)]
  · intro hndvd
    have hl : l ≠ [] := by
      intro hnil
      subst hnil
      exact hndvd (Dvd.intro 0 rfl)
    obtain ⟨c, hc1, hc2⟩ := specChunks_getLast n hn0 l hl
    have hmod : l.length % n ≠ 0 := fun h => hndvd (Nat.dvd_iff_mod_eq_zero.mpr h)
    exact ⟨specChunks_dropLast n hn0 l, c, hc1, by rw [hc2, if_neg hmod]⟩
  · intro hnil
    subst hnil
    exact specChunks_nil n

/-- Witness for C1 at N = 3 over a 10-line input. -/
theorem claim_C1_witness :
    (chunks ((3 : Nat) : Int)
        [['a'], ['b'], ['c'], ['d'], ['e'], ['f'], ['g'], ['h'], ['i'], ['j']]).flatten =
      [['a'], ['b'], ['c'], ['d'], ['e'], ['f'], ['g'], ['h'], ['i'], ['j']] ∧
    (chunks ((3 : Nat) : Int)
        [['a'], ['b'], ['c'], ['d'], ['e'], ['f'], ['g'], ['h'], ['i'], ['j']]).length =
      (([['a'], ['b'], ['c'], ['d'], ['e'], ['f'], ['g'], ['h'], ['i'], ['j']] :
          List (List Char)).length + 3 - 1) / 3 := by
  have h := claim_C1 3 (by decide)
    [['a'], ['b'], ['c'], ['d'], ['e'], ['f'], ['g'], ['h'], ['i'], ['j']]
  exact ⟨h.1, h.2.1⟩

/-! ### Properties of the omit-timestamp transformation -/

theorem dropWhile_append_of_all {p : Char → Bool} (xs ys : List Char)
    (h : ∀ x ∈ xs, p x = true) : (xs ++ ys).dropWhile p = ys.dropWhile p := by
  induction xs with
  | nil => simp
  | cons a as ih =>
    simp only [List.cons_append, List.dropWhile_cons]
    rw [if_pos (h a (List.mem_cons_self a as))]
    exact ih fun x hx => h x (List.mem_cons_of_mem a hx)

/-- The transformation on a line with no space is the identity
(`rsplit(' ', 1)` yields a single part). -/
theorem omit_timestamp_no_space (l : List Char) (h : ' ' ∉ l) :
    omit_timestamp l = l := by
  rw [omit_timestamp, if_neg h]

/-- The transformation on a line with a space keeps exactly the part
strictly before the last space. -/
theorem omit_timestamp_split (a b : List Char) (hb : ' ' ∉ b) :
    omit_timestamp (a ++ ' ' :: b) = a := by
  have hmem : ' ' ∈ a ++ ' ' :: b :=
    List.mem_append.mpr (Or.inr (List.mem_cons_self ' ' b))
  rw [omit_timestamp, if_pos hmem]
  rw [List.reverse_append, List.reverse_cons]
  rw [List.append_assoc]
  rw [dropWhile_append_of_all b.reverse ([' '] ++ a.reverse)
    (fun x hx => by
      have hxb : x ∈ b := List.mem_reverse.mp hx
      have hxs : x ≠ ' ' := fun hcontra => hb (hcontra ▸ hxb)
      simpa using hxs)]
  simp [List.dropWhile_cons]

/-- Counterexample to C2 as stated: the line `a<TAB>b` contains whitespace
(a tab), so the claimed whitespace-based removal of the final token would
shorten it (the spec-worded transform yields `a`), but the code splits on
the space character only and leaves the line unchanged. -/
theorem claim_C2_cex :
    omit_timestamp ['a', '\t', 'b'] = ['a', '\t', 'b'] ∧
    specOmitWhitespace ['a', '\t', 'b'] = ['a'] ∧
    ('\t').isWhitespace = true ∧
    omit_timestamp ['a', '\t', 'b'] ≠ specOmitWhitespace ['a', '\t', 'b'] := by
  refine ⟨by decide, by decide, by decide, by decide⟩

/-- C2 as amended: the transformation removes the final space-delimited
(U+0020) token and the single space immediately preceding it; a line
containing no space — even one containing other whitespace — is left
unchanged; in particular `a b c 123` yields `a b c`. -/
theorem claim_C2 (l a b : List Char) :
    (' ' ∉ l → omit_timestamp l = l) ∧
    (l = a ++ ' ' :: b → ' ' ∉ b → omit_timestamp l = a) ∧
    omit_timestamp "a b c 123".toList = "a b c".toList := by
  refine ⟨omit_timestamp_no_space l, ?_, by decide⟩
  intro hdec hb
  rw [hdec]
  exact omit_timestamp_split a b hb

/-- Witness for C2 at its concrete inputs. -/
theorem claim_C2_witness :
    omit_timestamp "a b c 123".toList = "a b c".toList ∧
    omit_timestamp "x\ty".toList = "x\ty".toList := by
  constructor
  · exact (claim_C2 ("a b c 123".toList) ("a b c".toList) ("123".toList)).2.1
      (by decide) (by decide)
  · exact (claim_C2 ("x\ty".toList) [] []).1 (by decide)

/-- C10: the transformation splits only on the literal space character:
a line with no space (even one containing a tab) is unchanged; with
multiple consecutive spaces before the final token only the last space is
removed; a line ending in a space loses only that trailing space. -/
theorem claim_C10 (l a b : List Char) :
    (' ' ∉ l → omit_timestamp l = l) ∧
    (l = a ++ ' ' :: ' ' :: b → ' ' ∉ b → omit_timestamp l = a ++ [' ']) ∧
    (l = a ++ [' '] → omit_timestamp l = a) := by
  refine ⟨omit_timestamp_no_space l, ?_, ?_⟩
  · intro hdec hb
    rw [hdec, List.append_cons a ' ' (' ' :: b)]
    exact omit_timestamp_split (a ++ [' ']) b hb
  · intro hdec
    rw [hdec]
    exact omit_timestamp_split a [] (by simp)

/-- Witness for C10 at a tab-only-whitespace line, a double-space line and
a line ending in a space. -/
theorem claim_C10_witness :
    omit_timestamp "a\tb".toList = "a\tb".toList ∧
    omit_timestamp "a  b".toList = "a ".toList ∧
    omit_timestamp "ab ".toList = "ab".toList := by
  refine ⟨?_, ?_, ?_⟩
  · exact (claim_C10 ("a\tb".toList) [] []).1 (by decide)
  · exact (claim_C10 ("a  b".toList) ("a".toList) ("b".toList)).2.1 (by decide) (by decide)
  · exact (claim_C10 ("ab ".toList) ("ab".toList) []).2.2 (by decide)

/-! ### Properties of the endpoint resolver -/

theorem rstrip_slash_append (host : List Char) :
    rstrip_slash (host ++ ['/']) = rstrip_slash host := by
  simp [rstrip_slash, List.dropWhile_cons]

/-- C3: the resolver first normalizes any trailing path separator on the
host, then produces exactly `host/write` for questdb and exactly
`host/api/v3/write_lp?db=sensors&precision=auto` for influxdb, and rejects
every other backend kind; the two concrete examples of the spec hold. -/
theorem claim_C3 (host : List Char) (b : String) :
    get_endpoint host "questdb" = some (rstrip_slash host ++ "/write".toList) ∧
    get_endpoint host "influxdb" =
      some (rstrip_slash host ++ "/api/v3/write_lp?db=sensors&precision=auto".toList) ∧
    (∀ back : String, back ≠ "questdb" → back ≠ "influxdb" →
      get_endpoint host back = none) ∧
    get_endpoint (host ++ ['/']) b = get_endpoint host b ∧
    get_endpoint "http://h:9/".toList "questdb" = some "http://h:9/write".toList ∧
    get_endpoint "http://h:9".toList "influxdb" =
      some "http://h:9/api/v3/write_lp?db=sensors&precision=auto".toList := by
  refine ⟨rfl, rfl, ?_, ?_, by decide, by decide⟩
  · intro back h1 h2
    rw [get_endpoint]
    simp [h1, h2]
  · rw [get_endpoint, get_endpoint, rstrip_slash_append]

/-- Witness for C3 at a concrete host and the unknown backend `mysql`. -/
theorem claim_C3_witness :
    get_endpoint "http://h:9/".toList "mysql" = none ∧
    get_endpoint ("http://h:9".toList ++ ['/']) "questdb" =
      get_endpoint "http://h:9".toList "questdb" := by
  constructor
  · exact (claim_C3 ("http://h:9/".toList) "mysql").2.2.1 "mysql" (by decide) (by decide)
  · exact (claim_C3 ("http://h:9".toList) "questdb").2.2.2.1

/-! ### Non-positive chunk sizes are not rejected (C4) -/

theorem chunksAux_nonpos {α : Type} (size : Int) (hsize : size ≤ 0) (l : List α) :
    ∀ acc : List α, chunksAux size acc l = if (acc ++ l).isEmpty then [] else [acc ++ l] := by
  induction l with
  | nil => intro acc; simp only [chunksAux, List.append_nil]
  | cons x xs ih =>
    intro acc
    have hne : ¬ ((acc ++ [x]).length : Int) = size := by
      have : (0 : Int) < ((acc ++ [x]).length : Int) := by
        simp only [List.length_append, List.length_singleton]
        exact_mod_cast Nat.succ_pos acc.length
      omega
    simp only [chunksAux, if_neg hne]
    rw [ih (acc ++ [x])]
    simp

/-- C4 evaluated on the code: with chunk size 0 (and -3) the program does
not reject the configuration; it assembles the whole file into a single
chunk, sends it and reports success.  `run` with chunk size 0 on a 2-line
file issues one network request and ends in a report (exit status 0),
not in any error. -/
theorem claim_C4 :
    chunks (0 : Int) [['a'], ['b']] = [[['a'], ['b']]] ∧
    chunks (-3 : Int) [['a'], ['b']] = [[['a'], ['b']]] ∧
    (run ⟨"http://h:9".toList, 0, 1, "questdb", false⟩ (some [['a'], ['b']])
        (fun _ => (.resp 200 [], 5))).outcome = .report 2 5 ∧
    (run ⟨"http://h:9".toList, 0, 1, "questdb", false⟩ (some [['a'], ['b']])
        (fun _ => (.resp 200 [], 5))).requests =
      [("http://h:9/write".toList, "a\nb\n".toList)] := by
  refine ⟨by decide, by decide, by decide, by decide⟩

/-! ### Properties of the sender and of a whole run -/

theorem get_endpoint_valid (host : List Char) (b : String)
    (hb : b = "questdb" ∨ b = "influxdb") : ∃ url, get_endpoint host b = some url := by
  rcases hb with h | h <;> subst h <;> exact ⟨_, rfl⟩

theorem send_chunk_eq (chunk_lines : List (List Char)) (host : List Char) (b : String)
    (tr : TransportResult) (e : Nat) (url : List Char)
    (hurl : get_endpoint host b = some url) :
    send_chunk chunk_lines host b tr e =
      (.returned ⟨chunk_lines.length, e, errOf tr⟩, [(url, chunk_body chunk_lines)]) := by
  cases tr <;> simp [send_chunk, hurl, errOf]

theorem mapM_extract_returned {γ : Type} (l : List γ) (r : γ → SendRecord)
    (q : γ → List (List Char × List Char)) :
    (l.map fun x => (SendCall.returned (r x), q x)).mapM extract_result =
      some (l.map r) := by
  induction l with
  | nil => rfl
  | cons a as ih =>
    rw [List.map_cons, List.mapM_cons, ih]
    rfl

theorem flatten_map_singleton {γ δ : Type} (l : List γ) (g : γ → δ) :
    (l.map fun x => [g x]).flatten = l.map g := by
  induction l <;> simp_all

theorem chunk_body_flat (chunk : List (List Char)) (h : chunk ≠ []) :
    chunk_body chunk = (chunk.map fun line => line ++ ['\n']).flatten := by
  induction chunk with
  | nil => exact absurd rfl h
  | cons x xs ih =>
    cases xs with
    | nil => simp [chunk_body, join_sep]
    | cons y ys =>
      have ihy := ih (by simp)
      simp only [chunk_body] at ihy ⊢
      rw [join_sep, List.map_cons, List.flatten_cons, ← ihy]
      simp [List.append_assoc]

theorem aggregate_eq (rs : List SendRecord) :
    aggregate rs = ((rs.map SendRecord.rows).sum, (rs.map SendRecord.elapsed).sum) := by
  have key : ∀ (rs : List SendRecord) (a b : Nat),
      rs.foldl (fun acc r => (acc.1 + r.rows, acc.2 + r.elapsed)) (a, b) =
        (a + (rs.map SendRecord.rows).sum, b + (rs.map SendRecord.elapsed).sum) := by
    intro rs
    induction rs with
    | nil => intro a b; simp
    | cons x xs ih => intro a b; simp [ih, Nat.add_assoc]
  simpa [aggregate] using key rs 0 0

/-- A run with a valid backend and at least one worker always ends in a
report: every chunk yields exactly one `SendRecord` (with its attempted row
count and elapsed time) and exactly one write request. -/
theorem run_valid (cfg : Config) (rawLines : List (List Char))
    (oracle : Nat → TransportResult × Nat) (url : List Char)
    (hb : cfg.backend = "questdb" ∨ cfg.backend = "influxdb")
    (hw : cfg.workers ≠ 0)
    (hurl : get_endpoint cfg.host cfg.backend = some url) :
    run cfg (some rawLines) oracle =
      ⟨.report
          (aggregate ((chunks cfg.chunk_size (transformed cfg rawLines)).enum.map
            (fun p => ⟨p.2.length, (oracle p.1).2, errOf (oracle p.1).1⟩))).1
          (aggregate ((chunks cfg.chunk_size (transformed cfg rawLines)).enum.map
            (fun p => ⟨p.2.length, (oracle p.1).2, errOf (oracle p.1).1⟩))).2,
        (chunks cfg.chunk_size (transformed cfg rawLines)).enum.map
          (fun p => (url, chunk_body p.2)),
        (chunks cfg.chunk_size (transformed cfg rawLines)).enum.map
          (fun p => ⟨p.2.length, (oracle p.1).2, errOf (oracle p.1).1⟩)⟩ := by
  have hsc : ∀ p : Nat × List (List Char),
      send_chunk p.2 cfg.host cfg.backend (oracle p.1).1 (oracle p.1).2 =
        (.returned ⟨p.2.length, (oracle p.1).2, errOf (oracle p.1).1⟩,
         [(url, chunk_body p.2)]) :=
    fun p => send_chunk_eq p.2 cfg.host cfg.backend (oracle p.1).1 (oracle p.1).2 url hurl
  rw [run, if_neg (not_not_intro hb)]
  simp only [pool_map, if_neg hw]
  simp only [hsc]
  simp only [mapM_extract_returned, List.map_map]
  simp only [Function.comp_def, flatten_map_singleton]

/-- C5: a chunk whose write raises a transport exception still yields a
returned `SendResult` (never a propagated crash), carrying the attempted
row count, the captured latency and the exception text as error detail;
and whatever the per-chunk transport outcomes are, the run still completes
with a report and one result per chunk. -/
theorem claim_C5 (cfg : Config) (chunk : List (List Char)) (msg url : List Char) (e : Nat)
    (rawLines : List (List Char)) (oracle : Nat → TransportResult × Nat)
    (hb : cfg.backend = "questdb" ∨ cfg.backend = "influxdb")
    (hw : cfg.workers ≠ 0)
    (hurl : get_endpoint cfg.host cfg.backend = some url) :
    send_chunk chunk cfg.host cfg.backend (.exc msg) e =
      (.returned ⟨chunk.length, e, some msg⟩, [(url, chunk_body chunk)]) ∧
    (∃ rows t, (run cfg (some rawLines) oracle).outcome = .report rows t) ∧
    (run cfg (some rawLines) oracle).results.length =
      (chunks cfg.chunk_size (transformed cfg rawLines)).length := by
  refine ⟨?_, ?_, ?_⟩
  · rw [send_chunk_eq chunk cfg.host cfg.backend (.exc msg) e url hurl]
    rfl
  · rw [run_valid cfg rawLines oracle url hb hw hurl]
    exact ⟨_, _, rfl⟩
  · rw [run_valid cfg rawLines oracle url hb hw hurl]
    simp

/-- Witness for C5: a run in which every chunk's request raises still
reports, with one result per chunk. -/
theorem claim_C5_witness :
    send_chunk [['a']] "http://h:9".toList "questdb" (.exc "boom".toList) 7 =
      (.returned ⟨1, 7, some "boom".toList⟩, [("http://h:9/write".toList, "a\n".toList)]) ∧
    (run ⟨"http://h:9".toList, 2, 1, "questdb", false⟩ (some [['a'], ['b'], ['c']])
        (fun _ => (.exc "boom".toList, 7))).results.length =
      (chunks (2 : Int)
        (transformed ⟨"http://h:9".toList, 2, 1, "questdb", false⟩ [['a'], ['b'], ['c']])).length := by
  have h := claim_C5 ⟨"http://h:9".toList, 2, 1, "questdb", false⟩ [['a']]
    ("boom".toList) ("http://h:9/write".toList) 7 [['a'], ['b'], ['c']]
    (fun _ => (.exc "boom".toList, 7)) (Or.inl rfl) (by decide) (by decide)
  exact ⟨h.1.trans (by decide), h.2.2⟩

/-- C6: aggregate total rows is the sum of per-chunk row counts, failed
sends counting their attempted rows exactly like successful ones; in the
10-line chunk-size-3 scenario the reported total is 10 for every oracle,
and in particular under mixed failures. -/
theorem claim_C6 :
    (∀ rs : List SendRecord, (aggregate rs).1 = (rs.map SendRecord.rows).sum) ∧
    (∀ oracle : Nat → TransportResult × Nat,
      (run cfg10 (some tenLines) oracle).outcome =
        .report 10 (aggregate (run cfg10 (some tenLines) oracle).results).2) ∧
    (run cfg10 (some tenLines) oracleMix).outcome = .report 10 16 := by
  refine ⟨fun rs => by rw [aggregate_eq], ?_, by decide⟩
  intro oracle
  rw [run_valid cfg10 tenLines oracle ("http://h:9/write".toList) (Or.inl rfl)
    (by decide) (by decide)]
  have hck : chunks cfg10.chunk_size (transformed cfg10 tenLines) =
      [[['a'], ['b'], ['c']], [['d'], ['e'], ['f']], [['g'], ['h'], ['i']], [['j']]] := by
    decide
  rw [hck]
  simp [aggregate_eq, List.enum, List.enumFrom]

/-- C7: for a non-empty chunk, exactly one write request is issued and its
body is the chunk's lines joined by single newlines with exactly one
trailing newline (equivalently, each line followed by one newline). -/
theorem claim_C7 (chunk : List (List Char)) (host : List Char) (b : String) (url : List Char)
    (tr : TransportResult) (e : Nat)
    (hne : chunk ≠ []) (hurl : get_endpoint host b = some url) :
    (send_chunk chunk host b tr e).2 =
      [(url, (chunk.map fun line => line ++ ['\n']).flatten)] := by
  rw [send_chunk_eq chunk host b tr e url hurl]
  simp [chunk_body_flat chunk hne]

/-- Witness for C7 on a two-line chunk. -/
theorem claim_C7_witness :
    (send_chunk [['a'], ['b']] "http://h:9".toList "questdb" (.exc []) 5).2 =
      [("http://h:9/write".toList, "a\nb\n".toList)] := by
  have h := claim_C7 [['a'], ['b']] ("http://h:9".toList) "questdb"
    ("http://h:9/write".toList) (.exc []) 5 (by decide) (by decide)
  rw [h]
  decide

/-- C8: a run configured with an unknown backend kind stops with a
configuration (usage) error before reading the file, issues no network
request and produces no per-chunk result. -/
theorem claim_C8 (cfg : Config) (file : Option (List (List Char)))
    (oracle : Nat → TransportResult × Nat)
    (h1 : cfg.backend ≠ "questdb") (h2 : cfg.backend ≠ "influxdb") :
    run cfg file oracle = ⟨.usage_error, [], []⟩ := by
  have hcond : ¬ (cfg.backend = "questdb" ∨ cfg.backend = "influxdb") := by
    rintro (h | h)
    · exact h1 h
    · exact h2 h
  rw [run.eq_def, if_pos hcond]

/-- Witness for C8 with backend `mysql`. -/
theorem claim_C8_witness :
    run ⟨"http://h:9".toList, 3, 1, "mysql", false⟩ (some [['a']])
      (fun _ => (.resp 200 [], 1)) = ⟨.usage_error, [], []⟩ :=
  claim_C8 ⟨"http://h:9".toList, 3, 1, "mysql", false⟩ (some [['a']])
    (fun _ => (.resp 200 [], 1)) (by decide) (by decide)

/-- C9: for any worker count W ≥ 1 the dispatcher returns exactly one
result per submitted element, in submission order, none dropped and none
duplicated, and only returns the completed collection. -/
theorem claim_C9 {α β : Type} (W : Nat) (hW : 1 ≤ W) (f : α → β) (xs : List α) :
    pool_map W f xs = some (xs.map f) ∧
    (xs.map f).length = xs.length ∧
    ∀ (i : Nat) (x : α), xs[i]? = some x → (xs.map f)[i]? = some (f x) := by
  refine ⟨?_, List.length_map xs f, ?_⟩
  · rw [pool_map, if_neg (by omega)]
  · intro i x hx
    rw [List.getElem?_map, hx]
    rfl

/-- Witness for C9 with two workers over a three-element list. -/
theorem claim_C9_witness :
    pool_map 2 (fun n : Nat => n + 1) [10, 20, 30] =
      some (([10, 20, 30] : List Nat).map fun n => n + 1) ∧
    (([10, 20, 30] : List Nat).map fun n => n + 1).length = 3 := by
  have h := claim_C9 2 (by decide) (fun n : Nat => n + 1) [10, 20, 30]
  exact ⟨h.1, h.2.1.trans (by decide)⟩


end SendInChunks
